import Mathlib

/-!
Verification of the multi-resort search aggregation pipeline of
`src/backend/backend_api.py` (Kindred-Ikon ski home finder).

The Python source is shallowly embedded below:

* calendar dates (produced by `datetime.strptime(_, "%Y-%m-%d")`) become the
  `Date` structure with the lexicographic order of `datetime` comparison;
  `dateutil.relativedelta(months=1)` becomes `Date.addMonth`;
* the `while current_date < end_date_dt` loop of `make_monthly_date_ranges`
  becomes fuel-indexed structural recursion, with fuel chosen large enough
  that it never runs out (each iteration strictly advances the date);
* driving times (floats obtained from the routing provider) are modelled as
  exact rationals: the aggregation code only compares them with `<`/`<=`
  and formats them, it never does arithmetic on them;
* the Python `dict` keyed by `homeId` becomes an insertion-ordered
  association list, and the stable ascending `list.sort(key=...)` becomes a
  stable insertion sort on the same boolean key comparison;
* network effects (`requests.post`) are abstracted by passing the provider
  response as a value to the embedded function.
-/

/-- A calendar date `(year, month, day)` as parsed by
`datetime.strptime(s, "%Y-%m-%d")` (time components are all zero). -/
structure Date where
  year : Nat
  month : Nat
  day : Nat
deriving DecidableEq

/-- Boolean `<=` on dates: the lexicographic comparison used by Python
`datetime` objects (all time fields being zero here). -/
def Date.ble (a b : Date) : Bool :=
  decide (a.year < b.year ∨ (a.year = b.year ∧
    (a.month < b.month ∨ (a.month = b.month ∧ a.day ≤ b.day))))

/-- Boolean `<` on dates (strict lexicographic comparison). -/
def Date.blt (a b : Date) : Bool :=
  decide (a.year < b.year ∨ (a.year = b.year ∧
    (a.month < b.month ∨ (a.month = b.month ∧ a.day < b.day))))

instance : LinearOrder Date where
  le a b := Date.ble a b = true
  lt a b := Date.blt a b = true
  lt_iff_le_not_le a b := by
    simp only [Date.ble, Date.blt, decide_eq_true_eq]
    omega
  le_refl a := by simp [Date.ble]
  le_trans a b c := by
    simp only [Date.ble, decide_eq_true_eq]
    omega
  le_antisymm a b := by
    cases a; cases b
    simp only [Date.ble, decide_eq_true_eq, Date.mk.injEq]
    omega
  le_total a b := by
    simp only [Date.ble, decide_eq_true_eq]
    omega
  decidableLE a b := inferInstanceAs (Decidable (Date.ble a b = true))
  decidableLT a b := inferInstanceAs (Decidable (Date.blt a b = true))

instance (a b : Date) : Decidable (a ≤ b) :=
  inferInstanceAs (Decidable (Date.ble a b = true))

instance (a b : Date) : Decidable (a < b) :=
  inferInstanceAs (Decidable (Date.blt a b = true))

/-- Gregorian leap year, as used by `datetime`/`dateutil`. -/
def isLeap (y : Nat) : Bool :=
  (y % 4 = 0 && y % 100 ≠ 0) || y % 400 = 0

/-- Number of days of month `m` of year `y` (the clamping bound used by
`relativedelta` when adding one month). -/
def daysInMonth (y m : Nat) : Nat :=
  if m = 2 then (if isLeap y then 29 else 28)
  else if m = 4 ∨ m = 6 ∨ m = 9 ∨ m = 11 then 30
  else 31

/-- A date accepted by `datetime.strptime(_, "%Y-%m-%d")`. -/
def Date.Valid (d : Date) : Prop :=
  1 ≤ d.month ∧ d.month ≤ 12 ∧ 1 ≤ d.day ∧ d.day ≤ daysInMonth d.year d.month

instance (d : Date) : Decidable d.Valid :=
  inferInstanceAs (Decidable (_ ∧ _))

/-- `d + relativedelta(months=1)`: advance by one calendar month, clamping
the day to the length of the target month. -/
def Date.addMonth (d : Date) : Date :=
  if d.month = 12 then
    ⟨d.year + 1, 1, min d.day (daysInMonth (d.year + 1) 1)⟩
  else
    ⟨d.year, d.month + 1, min d.day (daysInMonth d.year (d.month + 1))⟩

/-- A strictly monotone (on valid dates) linearisation of dates, used only
to bound the number of iterations of the partitioning loop. -/
def Date.key (d : Date) : Nat :=
  d.year * 372 + d.month * 31 + d.day

/-- One iteration layer of the `while current_date < end_date_dt` loop of
`make_monthly_date_ranges` (backend_api.py lines 290-294):
emit `[current_date, min(current_date + 1 month, end_date)]` and continue
from that endpoint.  `fuel` only bounds the recursion and is chosen large
enough below that it never runs out. -/
def mmdrAux : Nat → Date → Date → List (Date × Date)
  | 0, _, _ => []
  | fuel + 1, cur, fin =>
    if cur < fin then
      (cur, min cur.addMonth fin) :: mmdrAux fuel (min cur.addMonth fin) fin
    else []

/-- `make_monthly_date_ranges(start_date, end_date)` (lines 282-295), with
the two `"%Y-%m-%d"` strings already parsed to `Date`s and each emitted
range kept as a pair of `Date`s (the source formats each pair to ISO-8601
midnight strings via `to_iso_date_range`, an injective formatting step). -/
def make_monthly_date_ranges (start_date end_date : Date) : List (Date × Date) :=
  mmdrAux (end_date.key + 1) start_date end_date

/-- A `{lat, lon}` vertex as appended by `make_polygon`. -/
structure Point where
  lat : ℝ
  lon : ℝ

/-- `math.radians`: degrees to radians. -/
noncomputable def radians (x : ℝ) : ℝ := x * Real.pi / 180

/-- `make_polygon(lat, lon, distance_miles)` (backend_api.py lines 249-263):
for each of the 8 angles `[90, 45, 0, 315, 270, 225, 180, 135]` degrees,
emit the vertex offset by `distance_miles*sin(angle)/69.0` in latitude and
`distance_miles*cos(angle)/(69.172*cos(radians lat))` in longitude. -/
noncomputable def make_polygon (lat lon distance_miles : ℝ) : List Point :=
  let lat_rad := radians lat
  let miles_per_lat : ℝ := 69.0
  let miles_per_lon : ℝ := 69.172 * Real.cos lat_rad
  ([90, 45, 0, 315, 270, 225, 180, 135] : List ℝ).map fun angle =>
    let angle_rad := radians angle
    { lat := lat + distance_miles * Real.sin angle_rad / miles_per_lat,
      lon := lon + distance_miles * Real.cos angle_rad / miles_per_lon }

/-- One raw listing row as appended by `explore_map_multiple` (lines
384-398) and then tagged with its originating resort and enriched with a
driving time by `resort_map_multiple` (lines 429-448).  Driving times are
modelled as exact rationals (`none` = Python `None` = unknown). -/
structure RawListing where
  id : Option String
  title : Option String
  destination : Option String
  lat : Option ℚ
  lon : Option ℚ
  availabilitiesWithoutBookedDates : List (Date × Date)
  maxGuestsLimit : Option Nat
  petPreference : Option String
  petHostingDetails : Option String
  bedroomsCount : Option Nat
  bathrooms : Option ℚ
  imageUrl : Option String
  resort : String
  state : Option String
  region : String
  resort_lat : ℚ
  resort_lon : ℚ
  driving_time_minutes : Option ℚ
deriving DecidableEq

/-- One `{resort, state, region, driving_time_minutes}` entry of an
aggregated home's `resorts` list (lines 460-465 / 469-474). -/
structure ResortEntry where
  resort : String
  state : Option String
  region : String
  driving_time_minutes : Option ℚ
deriving DecidableEq

/-- The value stored in `homes_dict`: the first-seen listing's fields
(`result.copy()`, the base record) plus the accumulated `resorts` list and
the running `min_driving_time`. -/
structure AggregatedHome where
  base : RawListing
  resorts : List ResortEntry
  min_driving_time : Option ℚ
deriving DecidableEq

/-- The `{resort, state, region, driving_time_minutes}` dict built from a
listing (lines 460-465 and 469-474). -/
def entryOf (r : RawListing) : ResortEntry :=
  ⟨r.resort, r.state, r.region, r.driving_time_minutes⟩

/-- `home_id = result.get('id'); if not home_id: continue` (lines 453-455):
the key under which a listing is aggregated, `none` when the id is missing
or empty (Python falsy). -/
def goodId (r : RawListing) : Option String :=
  match r.id with
  | none => none
  | some s => if s = "" then none else some s

/-- Lines 476-479: update the running minimum with a new driving time
(`None` never replaces the current minimum; a known time replaces a `None`
or any strictly larger current minimum). -/
def updateMin (cur new : Option ℚ) : Option ℚ :=
  match new with
  | none => cur
  | some t =>
    match cur with
    | none => some t
    | some c => if t < c then some t else some c

/-- Processing of one listing by the deduplication loop (lines 452-479)
over the insertion-ordered association list modelling `homes_dict`. -/
def dedupStep (d : List (String × AggregatedHome)) (r : RawListing) :
    List (String × AggregatedHome) :=
  match goodId r with
  | none => d
  | some h =>
    if (d.find? (fun p => p.1 == h)).isSome then
      d.map fun p =>
        if p.1 == h then
          (p.1, { p.2 with
            resorts := p.2.resorts ++ [entryOf r],
            min_driving_time := updateMin p.2.min_driving_time r.driving_time_minutes })
        else p
    else
      d ++ [(h, ⟨r, [entryOf r], r.driving_time_minutes⟩)]

/-- The sort key comparison used by both `.sort(key=...)` calls (lines
486 and 489): ascending driving time with `None` mapped to `float('inf')`. -/
def timeLe (a b : Option ℚ) : Bool :=
  match a, b with
  | some x, some y => x ≤ y
  | some _, none => true
  | none, some _ => false
  | none, none => true

/-- Stable insertion of `x` into an already-processed list: `x` goes after
every element whose key is `<=` its own. -/
def stableInsert (le : α → α → Bool) (x : α) : List α → List α
  | [] => [x]
  | y :: ys => if le y x then y :: stableInsert le x ys else x :: y :: ys

/-- CPython's `list.sort` is a stable ascending sort by the given key; a
stable insertion sort computes the identical permutation. -/
def pySort (le : α → α → Bool) (l : List α) : List α :=
  l.foldl (fun acc x => stableInsert le x acc) []

/-- The key comparison of line 486: resorts entries by driving time. -/
def entryLe (x y : ResortEntry) : Bool :=
  timeLe x.driving_time_minutes y.driving_time_minutes

/-- The key comparison of line 489: homes by minimum driving time. -/
def homeLe (x y : AggregatedHome) : Bool :=
  timeLe x.min_driving_time y.min_driving_time

/-- Line 486: in-place sort of one home's `resorts` list. -/
def sortHomeResorts (home : AggregatedHome) : AggregatedHome :=
  { home with resorts := pySort entryLe home.resorts }

/-- The aggregation tail of `resort_map_multiple` (lines 450-491): given
the concatenated, enriched per-resort listing lists `results_full`,
deduplicate by home id into `homes_dict`, take the dict's values, sort
each home's `resorts` by driving time, and sort the homes by minimum
driving time.  (Collecting `results_full` itself — lines 411-448 — is
network I/O against the upstream search and routing services and is the
input here.) -/
def resort_map_multiple_aggregate (results_full : List RawListing) :
    List AggregatedHome :=
  let homes_dict := results_full.foldl dedupStep []
  let deduplicated_results := homes_dict.map (fun p => p.2)
  let inner_sorted := deduplicated_results.map sortHomeResorts
  pySort homeLe inner_sorted

/-- The listings out of `results_full` that are aggregated under key `h`. -/
def listingsFor (h : String) (L : List RawListing) : List RawListing :=
  L.filter (fun r => goodId r == some h)

/-- The effect on a `homes_dict` value of the `else` branch (lines
467-479) applied once per listing of `l`: append one `resorts` entry per
listing and fold the running minimum. -/
def extendHome (hm : AggregatedHome) (l : List RawListing) : AggregatedHome :=
  { hm with
    resorts := hm.resorts ++ l.map entryOf,
    min_driving_time :=
      l.foldl (fun a r => updateMin a r.driving_time_minutes) hm.min_driving_time }

/-- The map applied to `homes_dict` by the update branch (lines 467-479)
for a listing `r` keyed `h2`. -/
def updEntry (h2 : String) (r : RawListing) (p : String × AggregatedHome) :
    String × AggregatedHome :=
  if p.1 == h2 then
    (p.1, { p.2 with
      resorts := p.2.resorts ++ [entryOf r],
      min_driving_time := updateMin p.2.min_driving_time r.driving_time_minutes })
  else p

/-- `10*q` rounded half-to-even to an integer (the rounding performed by
Python's `"{q:.1f}"` formatting), computed on the reduced
numerator/denominator: with `f` and `r` the Euclidean quotient and
remainder of `10*num` by `den`, the fractional part `r/den` is compared
with `1/2` by comparing `2*r` with `den`. -/
def roundHalfEven10 (q : ℚ) : Int :=
  if 2 * (q.num * 10 % (q.den : Int)) < (q.den : Int) then
    q.num * 10 / (q.den : Int)
  else if (q.den : Int) < 2 * (q.num * 10 % (q.den : Int)) then
    q.num * 10 / (q.den : Int) + 1
  else if q.num * 10 / (q.den : Int) % 2 = 0 then
    q.num * 10 / (q.den : Int)
  else
    q.num * 10 / (q.den : Int) + 1

/-- `"{q:.1f}"` for the non-negative driving times occurring here: one
digit after the decimal point, rounding half to even. -/
def fmt1f (q : ℚ) : String :=
  toString (roundHalfEven10 q / 10) ++ "." ++ toString (roundHalfEven10 q % 10)

/-- The inclusive overlap test of lines 744-746:
`avail_start <= search_end and avail_end >= search_start`. -/
def overlapB (search_start search_end : Date) (a : Date × Date) : Bool :=
  decide (a.1 ≤ search_end) && decide (search_start ≤ a.2)

/-- The fallback image of line 769. -/
def placeholder_image : String :=
  "https://images.unsplash.com/photo-1518780664697-55e3ad937233?w=800&q=80"

/-- One formatted row of the `/api/search` response (lines 759-776). -/
structure SearchResult where
  id : Option String
  name : Option String
  resort : String
  resorts : List ResortEntry
  distance : String
  driveTime : Option ℚ
  bedrooms : Option Nat
  bathrooms : Option ℚ
  maxGuests : Option Nat
  imageUrl : String
  lat : Option ℚ
  lng : Option ℚ
  availabilities : List (Date × Date)
  petPreference : Option String
  petHostingDetails : Option String
  homeUrl : String
deriving DecidableEq

/-- The body of the per-home formatting loop of `search` (lines 735-776):
keep the availability windows overlapping the requested range, drop the
home if none overlaps, and otherwise emit the formatted row.  Note the
`distance` field uses the home dict's `driving_time_minutes` key (the
first-seen listing's driving time as copied at line 459) under a Python
truthiness test, and the image fallback uses `or` (another truthiness
test). -/
def formatOne (search_start search_end : Date) (r : AggregatedHome) :
    Option SearchResult :=
  if 0 < (r.base.availabilitiesWithoutBookedDates.filter
      (overlapB search_start search_end)).length then
    some {
      id := r.base.id,
      name := r.base.title,
      resort := r.base.resort,
      resorts := if r.resorts.isEmpty then
          [⟨r.base.resort, none, "", r.base.driving_time_minutes⟩]
        else r.resorts,
      distance := match r.base.driving_time_minutes with
        | some q => if q = 0 then "N/A" else fmt1f q ++ " min"
        | none => "N/A",
      driveTime := r.base.driving_time_minutes,
      bedrooms := r.base.bedroomsCount,
      bathrooms := r.base.bathrooms,
      maxGuests := r.base.maxGuestsLimit,
      imageUrl := match r.base.imageUrl with
        | some s => if s = "" then placeholder_image else s
        | none => placeholder_image,
      lat := r.base.lat,
      lng := r.base.lon,
      availabilities := r.base.availabilitiesWithoutBookedDates.filter
        (overlapB search_start search_end),
      petPreference := r.base.petPreference,
      petHostingDetails := r.base.petHostingDetails,
      homeUrl := match r.base.id with
        | some s => "https://livekindred.com/home/" ++ s
        | none => "https://livekindred.com/home/None" }
  else none

/-- Lines 731-778: the filter-and-format pass over the aggregated homes. -/
def format_search_results (search_start search_end : Date)
    (results : List AggregatedHome) : List SearchResult :=
  results.filterMap (formatOne search_start search_end)

/-- The JSON shape of one entry of the `routes` array of the
OpenRouteService response, as accessed by line 244: either it carries
`summary.duration` (seconds) or some accessed key is missing. -/
inductive RouteJson where
  | malformed : RouteJson
  | route (duration : ℚ) : RouteJson
deriving DecidableEq

/-- Outcome of the single `requests.post` call of `get_driving_time`:
the call (or `.json()` parsing) raised, the parsed body has no usable
`routes` key, or it has a `routes` array. -/
inductive ProviderResponse where
  | raised : ProviderResponse
  | badJson : ProviderResponse
  | routes (rs : List RouteJson) : ProviderResponse
deriving DecidableEq

/-- `get_driving_time` (backend_api.py lines 229-246): with a falsy API
key it returns `None` without calling the provider; otherwise it calls
the provider exactly once (the second component counts calls) and
extracts `routes[0].summary.duration / 60`, returning `None` on any
raised exception, malformed body, or missing route (the
`except (KeyError, Exception)` clause catches everything). -/
def get_driving_time (api_key : Option String)
    (resort_lat resort_lon house_lat house_lon : ℚ)
    (resp : ProviderResponse) : Option ℚ × Nat :=
  if api_key = none ∨ api_key = some ("") then (none, 0)
  else
    match resp with
    | .raised => (none, 1)
    | .badJson => (none, 1)
    | .routes [] => (none, 1)
    | .routes (.malformed :: _) => (none, 1)
    | .routes (.route d :: _) => (some (d / 60), 1)

/-- A concrete enriched listing: home `h1` found near Aspen, 47 min away. -/
def listingA : RawListing :=
  { id := some ("h1"), title := some ("Cozy A-frame"),
    destination := some ("Aspen"), lat := some 39, lon := some (-106),
    availabilitiesWithoutBookedDates := [(⟨2025, 1, 1⟩, ⟨2025, 1, 12⟩)],
    maxGuestsLimit := some 4, petPreference := some ("YES"),
    petHostingDetails := none, bedroomsCount := some 2, bathrooms := some 1,
    imageUrl := none, resort := "Aspen", state := some ("CO"),
    region := "Rockies", resort_lat := 39, resort_lon := -106,
    driving_time_minutes := some 47 }

/-- The same home `h1` as returned by the Vail query, 12 min away. -/
def listingB : RawListing :=
  { listingA with resort := "Vail", driving_time_minutes := some 12 }

/-- A listing with an empty home id (dropped by the dedup loop). -/
def listingNoId : RawListing :=
  { listingA with id := some (""), resort := "Alta" }

/-- The single aggregated home produced from `[listingA]`. -/
def sampleHome : AggregatedHome :=
  ⟨listingA, [entryOf listingA], some 47⟩

theorem Date.le_def (a b : Date) :
    a ≤ b ↔ (a.year < b.year ∨ (a.year = b.year ∧
      (a.month < b.month ∨ (a.month = b.month ∧ a.day ≤ b.day)))) := by
  show Date.ble a b = true ↔ _
  simp [Date.ble]

theorem Date.lt_def (a b : Date) :
    a < b ↔ (a.year < b.year ∨ (a.year = b.year ∧
      (a.month < b.month ∨ (a.month = b.month ∧ a.day < b.day)))) := by
  show Date.blt a b = true ↔ _
  simp [Date.blt]

theorem daysInMonth_le_31 (y m : Nat) : daysInMonth y m ≤ 31 := by
  unfold daysInMonth
  split_ifs <;> omega

theorem daysInMonth_pos (y m : Nat) : 1 ≤ daysInMonth y m := by
  unfold daysInMonth
  split_ifs <;> omega

theorem Date.valid_mk (y m dd : Nat) :
    (Date.mk y m dd).Valid ↔ (1 ≤ m ∧ m ≤ 12 ∧ 1 ≤ dd ∧ dd ≤ daysInMonth y m) :=
  Iff.rfl

theorem Date.Valid.addMonth {d : Date} (h : d.Valid) : d.addMonth.Valid := by
  obtain ⟨h1, h2, h3, h4⟩ := h
  unfold Date.addMonth
  split
  · rw [Date.valid_mk]
    exact ⟨by omega, by omega, le_min h3 (daysInMonth_pos _ _), min_le_right _ _⟩
  · next hm =>
      rw [Date.valid_mk]
      exact ⟨by omega, by omega, le_min h3 (daysInMonth_pos _ _), min_le_right _ _⟩

theorem Date.lt_addMonth (d : Date) : d < d.addMonth := by
  rw [Date.lt_def]
  unfold Date.addMonth
  split
  · exact Or.inl (Nat.lt_succ_self _)
  · exact Or.inr ⟨rfl, Or.inl (Nat.lt_succ_self _)⟩

theorem Date.Valid.day_le_31 {d : Date} (h : d.Valid) : d.day ≤ 31 :=
  le_trans h.2.2.2 (daysInMonth_le_31 _ _)

theorem Date.key_lt_key {a b : Date} (ha : a.Valid) (hb : b.Valid)
    (h : a < b) : a.key < b.key := by
  rw [Date.lt_def] at h
  have h1 := ha.1
  have h2 := ha.2.1
  have h3 := ha.day_le_31
  have h4 := hb.1
  have h5 := hb.2.1
  have h6 := hb.day_le_31
  have h7 := ha.2.2.1
  have h8 := hb.2.2.1
  unfold Date.key
  rcases h with h | ⟨he, h | ⟨hm, hd⟩⟩ <;> omega

theorem mmdrAux_nil_of_not_lt (fuel : Nat) (cur fin : Date) (h : ¬ cur < fin) :
    mmdrAux fuel cur fin = [] := by
  cases fuel <;> simp [mmdrAux, h]

/-- Full behaviour of the partitioning loop, for any fuel exceeding the
number of remaining iterations: starting from `cur < fin` it emits a
contiguous, pairwise non-overlapping chain of windows starting at `cur`,
each ending at `min (start + 1 month) fin`, jointly covering `[cur, fin]`,
with the last window ending exactly at `fin`. -/
theorem mmdrAux_spec (fuel : Nat) :
    ∀ (cur fin : Date), cur.Valid → fin.Valid → cur < fin →
      fin.key - cur.key < fuel →
      (∃ b rest, mmdrAux fuel cur fin = (cur, b) :: rest) ∧
      List.Chain' (fun a b => a.2 = b.1) (mmdrAux fuel cur fin) ∧
      (∀ w ∈ mmdrAux fuel cur fin, w.2 = min w.1.addMonth fin) ∧
      (∀ w ∈ mmdrAux fuel cur fin, cur ≤ w.1 ∧ w.1 < w.2 ∧ w.2 ≤ fin) ∧
      (∃ w, (mmdrAux fuel cur fin).getLast? = some w ∧ w.2 = fin) ∧
      (∀ d : Date, cur ≤ d → d ≤ fin →
        ∃ w ∈ mmdrAux fuel cur fin, w.1 ≤ d ∧ d ≤ w.2) ∧
      List.Pairwise (fun a b => a.2 ≤ b.1) (mmdrAux fuel cur fin) := by
  induction fuel with
  | zero =>
    intro cur fin _ _ _ hf
    exact absurd hf (Nat.not_lt_zero _)
  | succ n ih =>
    intro cur fin hvc hvf hlt hf
    have hlt_re : cur < min cur.addMonth fin := lt_min (Date.lt_addMonth cur) hlt
    have hre_le : min cur.addMonth fin ≤ fin := min_le_right _ _
    have hre_valid : (min cur.addMonth fin).Valid := by
      rcases min_choice cur.addMonth fin with h | h <;> rw [h]
      exacts [hvc.addMonth, hvf]
    have hunfold : mmdrAux (n + 1) cur fin
        = (cur, min cur.addMonth fin) :: mmdrAux n (min cur.addMonth fin) fin := by
      simp [mmdrAux, hlt]
    rcases eq_or_lt_of_le hre_le with heq | hlt2
    · have hrec : mmdrAux n (min cur.addMonth fin) fin = [] := by
        rw [heq]
        exact mmdrAux_nil_of_not_lt n fin fin (lt_irrefl fin)
      rw [hunfold, hrec, heq]
      refine ⟨⟨fin, [], rfl⟩, List.chain'_singleton _, ?_, ?_, ⟨(cur, fin), rfl, rfl⟩,
        ?_, List.pairwise_singleton _ _⟩
      · intro w hw
        rw [List.mem_singleton] at hw
        subst hw
        exact heq.symm
      · intro w hw
        rw [List.mem_singleton] at hw
        subst hw
        exact ⟨le_refl _, hlt, le_refl _⟩
      · intro d hd1 hd2
        exact ⟨(cur, fin), List.mem_singleton_self _, hd1, hd2⟩
    · have hkey : fin.key - (min cur.addMonth fin).key < n := by
        have hk := Date.key_lt_key hvc hre_valid hlt_re
        have hk2 := Date.key_lt_key hre_valid hvf hlt2
        omega
      obtain ⟨⟨b, rest, hhead⟩, hchain, hends, hbounds, hlast, hcover, hpair⟩ :=
        ih (min cur.addMonth fin) fin hre_valid hvf hlt2 hkey
      rw [hunfold]
      refine ⟨⟨min cur.addMonth fin, _, rfl⟩, ?_, ?_, ?_, ?_, ?_, ?_⟩
      · rw [hhead] at hchain ⊢
        have hb1 : (min cur.addMonth fin) = ((min cur.addMonth fin, b)).1 := rfl
        exact List.chain'_cons.mpr ⟨rfl, hchain⟩
      · intro w hw
        rcases List.mem_cons.mp hw with hw | hw
        · subst hw; rfl
        · exact hends w hw
      · intro w hw
        rcases List.mem_cons.mp hw with hw | hw
        · subst hw; exact ⟨le_refl _, hlt_re, hre_le⟩
        · obtain ⟨hb1, hb2, hb3⟩ := hbounds w hw
          exact ⟨le_trans (le_of_lt hlt_re) hb1, hb2, hb3⟩
      · obtain ⟨w, hw1, hw2⟩ := hlast
        rw [hhead] at hw1 ⊢
        exact ⟨w, by rw [List.getLast?_cons_cons]; exact hw1, hw2⟩
      · intro d hd1 hd2
        rcases le_total d (min cur.addMonth fin) with hdr | hdr
        · exact ⟨(cur, min cur.addMonth fin), List.mem_cons_self _ _, hd1, hdr⟩
        · obtain ⟨w, hw, hw1, hw2⟩ := hcover d hdr hd2
          exact ⟨w, List.mem_cons_of_mem _ hw, hw1, hw2⟩
      · exact List.pairwise_cons.mpr ⟨fun w hw => (hbounds w hw).1, hpair⟩

/-- Claim C4 (amended to `startDate < endDate`; for `startDate = endDate`
the function returns no windows, see the counterexample below): for valid
`startDate < endDate`, the flexible-mode partition returns a non-empty
sequence of windows that starts at `startDate`, is contiguous (each
window's start is the previous window's end), pairwise non-overlapping,
stays inside `[startDate, endDate]` with non-degenerate windows, has each
window's end equal to `min (windowStart + 1 month) endDate`, ends exactly
at `endDate`, and covers every date of `[startDate, endDate]`. -/
theorem make_monthly_date_ranges_spec (s e : Date)
    (hs : s.Valid) (he : e.Valid) (hlt : s < e) :
    (∃ b rest, make_monthly_date_ranges s e = (s, b) :: rest) ∧
    List.Chain' (fun a b => a.2 = b.1) (make_monthly_date_ranges s e) ∧
    (∀ w ∈ make_monthly_date_ranges s e, w.2 = min w.1.addMonth e) ∧
    (∀ w ∈ make_monthly_date_ranges s e, s ≤ w.1 ∧ w.1 < w.2 ∧ w.2 ≤ e) ∧
    (∃ w, (make_monthly_date_ranges s e).getLast? = some w ∧ w.2 = e) ∧
    (∀ d : Date, s ≤ d → d ≤ e →
      ∃ w ∈ make_monthly_date_ranges s e, w.1 ≤ d ∧ d ≤ w.2) ∧
    List.Pairwise (fun a b => a.2 ≤ b.1) (make_monthly_date_ranges s e) := by
  unfold make_monthly_date_ranges
  exact mmdrAux_spec (e.key + 1) s e hs he hlt (by omega)

/-- Witness for C4: the amended theorem applied at 2025-01-10 .. 2025-03-05. -/
theorem make_monthly_date_ranges_spec_witness :
    ((⟨2025, 1, 10⟩ : Date).Valid ∧ (⟨2025, 3, 5⟩ : Date).Valid ∧
      (⟨2025, 1, 10⟩ : Date) < ⟨2025, 3, 5⟩) ∧
    ((∃ b rest,
        make_monthly_date_ranges ⟨2025, 1, 10⟩ ⟨2025, 3, 5⟩ =
          ((⟨2025, 1, 10⟩ : Date), b) :: rest) ∧
      List.Chain' (fun a b => a.2 = b.1)
        (make_monthly_date_ranges ⟨2025, 1, 10⟩ ⟨2025, 3, 5⟩) ∧
      (∀ w ∈ make_monthly_date_ranges ⟨2025, 1, 10⟩ ⟨2025, 3, 5⟩,
        w.2 = min w.1.addMonth ⟨2025, 3, 5⟩) ∧
      (∀ w ∈ make_monthly_date_ranges ⟨2025, 1, 10⟩ ⟨2025, 3, 5⟩,
        (⟨2025, 1, 10⟩ : Date) ≤ w.1 ∧ w.1 < w.2 ∧ w.2 ≤ ⟨2025, 3, 5⟩) ∧
      (∃ w, (make_monthly_date_ranges ⟨2025, 1, 10⟩ ⟨2025, 3, 5⟩).getLast? = some w ∧
        w.2 = ⟨2025, 3, 5⟩) ∧
      (∀ d : Date, (⟨2025, 1, 10⟩ : Date) ≤ d → d ≤ ⟨2025, 3, 5⟩ →
        ∃ w ∈ make_monthly_date_ranges ⟨2025, 1, 10⟩ ⟨2025, 3, 5⟩,
          w.1 ≤ d ∧ d ≤ w.2) ∧
      List.Pairwise (fun a b => a.2 ≤ b.1)
        (make_monthly_date_ranges ⟨2025, 1, 10⟩ ⟨2025, 3, 5⟩)) :=
  ⟨⟨by decide, by decide, by decide⟩,
    make_monthly_date_ranges_spec ⟨2025, 1, 10⟩ ⟨2025, 3, 5⟩
      (by decide) (by decide) (by decide)⟩

/-- Counterexample to C4 as stated: the claim quantifies over all valid
`startDate ≤ endDate`, but for `startDate = endDate` (a valid, non-empty
one-day range) the code returns no windows at all, so no window covers
`startDate` and there is no final window ending at `endDate`. -/
theorem make_monthly_date_ranges_degenerate_counterexample :
    (⟨2025, 1, 10⟩ : Date).Valid ∧
    (⟨2025, 1, 10⟩ : Date) ≤ ⟨2025, 1, 10⟩ ∧
    make_monthly_date_ranges ⟨2025, 1, 10⟩ ⟨2025, 1, 10⟩ = [] ∧
    ¬ (∃ w ∈ make_monthly_date_ranges ⟨2025, 1, 10⟩ ⟨2025, 1, 10⟩,
        w.1 ≤ (⟨2025, 1, 10⟩ : Date) ∧ (⟨2025, 1, 10⟩ : Date) ≤ w.2) ∧
    ¬ (∃ w, (make_monthly_date_ranges ⟨2025, 1, 10⟩ ⟨2025, 1, 10⟩).getLast? = some w ∧
        w.2 = (⟨2025, 1, 10⟩ : Date)) := by
  refine ⟨by decide, by decide, by decide, ?_, ?_⟩
  · rintro ⟨w, hw, -⟩
    rw [show make_monthly_date_ranges ⟨2025, 1, 10⟩ ⟨2025, 1, 10⟩ = [] by decide] at hw
    exact absurd hw (List.not_mem_nil w)
  · rintro ⟨w, hw, -⟩
    rw [show make_monthly_date_ranges ⟨2025, 1, 10⟩ ⟨2025, 1, 10⟩ = [] by decide] at hw
    exact absurd hw (by simp)

/-- Claim C5 (amended): for `startDate > endDate` no error of any kind is
raised — `make_monthly_date_ranges` is a total function whose
`while current_date < end_date_dt` loop exits immediately, returning the
empty list of windows (the surrounding search then proceeds to query the
upstream service with an empty date-range list; there is no `InvalidRange`
error anywhere in the code). -/
theorem make_monthly_date_ranges_empty_of_gt (s e : Date) (h : e < s) :
    make_monthly_date_ranges s e = [] := by
  unfold make_monthly_date_ranges
  exact mmdrAux_nil_of_not_lt _ s e (lt_asymm h)

/-- Witness for the amended C5 at 2025-02-01 > 2025-01-01. -/
theorem make_monthly_date_ranges_empty_of_gt_witness :
    (⟨2025, 1, 1⟩ : Date) < ⟨2025, 2, 1⟩ ∧
    make_monthly_date_ranges ⟨2025, 2, 1⟩ ⟨2025, 1, 1⟩ = [] :=
  ⟨by decide, make_monthly_date_ranges_empty_of_gt ⟨2025, 2, 1⟩ ⟨2025, 1, 1⟩ (by decide)⟩

/-- Counterexample to C5 as stated: on `startDate > endDate` the
partitioning step does not fail — it produces an ordinary (empty) result,
so no `InvalidRange` error can be surfaced to the caller. -/
theorem make_monthly_date_ranges_no_error_counterexample :
    make_monthly_date_ranges ⟨2025, 2, 1⟩ ⟨2025, 1, 1⟩ = [] := by
  decide

/-- Claim C6: `make_polygon` returns exactly 8 vertices, one per angle in
the order `[90, 45, 0, 315, 270, 225, 180, 135]` degrees, the vertex for
angle `a` being
`{lat + r*sin(a)/69.0, lon + r*cos(a)/(69.172*cos(radians lat))}`；
for `r = 0` every vertex equals the center point. -/
theorem make_polygon_spec (lat lon r : ℝ) :
    make_polygon lat lon r =
      [90, 45, 0, 315, 270, 225, 180, 135].map (fun angle : ℝ =>
        { lat := lat + r * Real.sin (radians angle) / 69.0,
          lon := lon + r * Real.cos (radians angle) / (69.172 * Real.cos (radians lat)) }) ∧
    (make_polygon lat lon r).length = 8 ∧
    make_polygon lat lon 0 = List.replicate 8 { lat := lat, lon := lon } := by
  refine ⟨rfl, rfl, ?_⟩
  show List.map _ _ = _
  simp [zero_mul, zero_div, add_zero, List.replicate]

theorem stableInsert_perm (le : α → α → Bool) (x : α) (l : List α) :
    (stableInsert le x l).Perm (x :: l) := by
  induction l with
  | nil => exact List.Perm.refl _
  | cons y ys ih =>
    unfold stableInsert
    split
    · exact (ih.cons y).trans (List.Perm.swap x y ys)
    · exact List.Perm.refl _

theorem pySort_perm (le : α → α → Bool) (l : List α) : (pySort le l).Perm l := by
  suffices hgen : ∀ (l acc : List α),
      (l.foldl (fun acc x => stableInsert le x acc) acc).Perm (acc ++ l) by
    simpa using hgen l []
  intro l
  induction l with
  | nil => intro acc; simp
  | cons x xs ih =>
    intro acc
    rw [List.foldl_cons]
    exact (ih _).trans (((stableInsert_perm le x acc).append_right xs).trans
      List.perm_middle.symm)

theorem stableInsert_pairwise (le : α → α → Bool)
    (htot : ∀ a b, le a b = true ∨ le b a = true)
    (htrans : ∀ a b c, le a b = true → le b c = true → le a c = true)
    (x : α) (l : List α) (hl : l.Pairwise (fun a b => le a b = true)) :
    (stableInsert le x l).Pairwise (fun a b => le a b = true) := by
  induction l with
  | nil => exact List.pairwise_singleton _ _
  | cons y ys ih =>
    obtain ⟨hy, hys⟩ := List.pairwise_cons.mp hl
    unfold stableInsert
    split
    · next hle =>
        refine List.pairwise_cons.mpr ⟨?_, ih hys⟩
        intro z hz
        rcases List.mem_cons.mp ((stableInsert_perm le x ys).mem_iff.mp hz) with rfl | hz
        · exact hle
        · exact hy z hz
    · next hle =>
        have hxy : le x y = true := (htot x y).resolve_right (by simpa using hle)
        refine List.pairwise_cons.mpr ⟨?_, hl⟩
        intro z hz
        rcases List.mem_cons.mp hz with rfl | hz
        · exact hxy
        · exact htrans x y z hxy (hy z hz)

theorem pySort_pairwise (le : α → α → Bool)
    (htot : ∀ a b, le a b = true ∨ le b a = true)
    (htrans : ∀ a b c, le a b = true → le b c = true → le a c = true)
    (l : List α) : (pySort le l).Pairwise (fun a b => le a b = true) := by
  suffices hgen : ∀ (l acc : List α), acc.Pairwise (fun a b => le a b = true) →
      (l.foldl (fun acc x => stableInsert le x acc) acc).Pairwise
        (fun a b => le a b = true) by
    exact hgen l [] List.Pairwise.nil
  intro l
  induction l with
  | nil => intro acc hacc; exact hacc
  | cons x xs ih =>
    intro acc hacc
    rw [List.foldl_cons]
    exact ih _ (stableInsert_pairwise le htot htrans x acc hacc)

theorem timeLe_total (a b : Option ℚ) : timeLe a b = true ∨ timeLe b a = true := by
  cases a <;> cases b <;> simp [timeLe]
  exact le_total _ _

theorem timeLe_trans (a b c : Option ℚ) (h1 : timeLe a b = true)
    (h2 : timeLe b c = true) : timeLe a c = true := by
  cases a <;> cases b <;> cases c <;> simp [timeLe] at h1 h2 ⊢
  exact le_trans h1 h2

theorem goodId_eq_some {r : RawListing} {h : String} :
    goodId r = some h ↔ (r.id = some h ∧ h ≠ "") := by
  cases hr : r.id with
  | none => simp [goodId, hr]
  | some s =>
    simp only [goodId, hr]
    by_cases hs : s = ""
    · subst hs
      rw [if_pos rfl]
      constructor
      · intro he
        exact absurd he (by simp)
      · rintro ⟨he, hne⟩
        exact absurd (Option.some.inj he).symm hne
    · rw [if_neg hs]
      constructor
      · intro he
        have hsh : s = h := Option.some.inj he
        subst hsh
        exact ⟨rfl, hs⟩
      · rintro ⟨he, -⟩
        exact he

theorem find?_map_keyed (d : List (String × AggregatedHome)) (h : String)
    (f : (String × AggregatedHome) → (String × AggregatedHome))
    (hf : ∀ p, (f p).1 = p.1) :
    ((d.map f).find? (fun p => p.1 == h)) =
      (d.find? (fun p => p.1 == h)).map f := by
  induction d with
  | nil => rfl
  | cons q d ih =>
    simp only [List.map_cons]
    by_cases hq : (q.1 == h) = true
    · have e1 : (f q :: List.map f d).find? (fun p => p.1 == h) = some (f q) :=
        List.find?_cons_of_pos _ (by rw [hf q]; exact hq)
      have e2 : (q :: d).find? (fun p => p.1 == h) = some q :=
        List.find?_cons_of_pos _ hq
      rw [e1, e2, Option.map_some']
    · have e1 : (f q :: List.map f d).find? (fun p => p.1 == h) =
          (List.map f d).find? (fun p => p.1 == h) :=
        List.find?_cons_of_neg _ (by rw [hf q]; exact hq)
      have e2 : (q :: d).find? (fun p => p.1 == h) = d.find? (fun p => p.1 == h) :=
        List.find?_cons_of_neg _ hq
      rw [e1, e2, ih]

theorem extendHome_step (hm : AggregatedHome) (r : RawListing) (l : List RawListing) :
    extendHome { hm with
        resorts := hm.resorts ++ [entryOf r],
        min_driving_time := updateMin hm.min_driving_time r.driving_time_minutes }
      l = extendHome hm (r :: l) := by
  unfold extendHome
  simp [List.append_assoc]

theorem updEntry_fst (h2 : String) (r : RawListing) (p : String × AggregatedHome) :
    (updEntry h2 r p).1 = p.1 := by
  unfold updEntry
  by_cases hq : (p.1 == h2) = true
  · rw [if_pos hq]
  · rw [if_neg hq]

theorem dedupStep_eq_skip (d : List (String × AggregatedHome)) (r : RawListing)
    (hg : goodId r = none) : dedupStep d r = d := by
  simp only [dedupStep, hg]

theorem dedupStep_eq_update (d : List (String × AggregatedHome)) (r : RawListing)
    (h2 : String) (hg : goodId r = some h2)
    (hfind : (d.find? (fun p => p.1 == h2)).isSome = true) :
    dedupStep d r = d.map (updEntry h2 r) := by
  simp only [dedupStep, hg, hfind, if_true, updEntry]
  rfl

theorem dedupStep_eq_insert (d : List (String × AggregatedHome)) (r : RawListing)
    (h2 : String) (hg : goodId r = some h2)
    (hfind : (d.find? (fun p => p.1 == h2)).isSome = false) :
    dedupStep d r = d ++ [(h2, ⟨r, [entryOf r], r.driving_time_minutes⟩)] := by
  simp only [dedupStep, hg, hfind, if_false, Bool.false_eq_true]

/-- Central characterisation of the deduplication loop: the entry found
under key `h` after folding `L` into `d` extends either the existing
entry or (failing that) a fresh entry made from the first listing keyed
`h`, by all the remaining listings keyed `h`. -/
theorem foldl_dedupStep_find (L : List RawListing) :
    ∀ (d : List (String × AggregatedHome)) (h : String),
      ((L.foldl dedupStep d).find? (fun p => p.1 == h)) =
        match d.find? (fun p => p.1 == h) with
        | some p => some (p.1, extendHome p.2 (listingsFor h L))
        | none =>
          match listingsFor h L with
          | [] => none
          | r0 :: rest =>
            some (h, extendHome ⟨r0, [entryOf r0], r0.driving_time_minutes⟩ rest) := by
  induction L with
  | nil =>
    intro d h
    simp only [List.foldl_nil]
    cases hd : d.find? (fun p => p.1 == h) with
    | none => simp [listingsFor]
    | some p => simp [listingsFor, extendHome]
  | cons r L ih =>
    intro d h
    rw [List.foldl_cons, ih]
    cases hg : goodId r with
    | none =>
      have hfilter : listingsFor h (r :: L) = listingsFor h L := by
        unfold listingsFor
        rw [List.filter_cons_of_neg]
        simp [hg]
      rw [dedupStep_eq_skip d r hg, hfilter]
    | some h2 =>
      by_cases hh : h2 = h
      · subst hh
        have hfilter : listingsFor h2 (r :: L) = r :: listingsFor h2 L := by
          unfold listingsFor
          rw [List.filter_cons_of_pos]
          simp [hg]
        rw [hfilter]
        cases hfind : (d.find? (fun p => p.1 == h2)).isSome with
        | true =>
          obtain ⟨p, hp⟩ := Option.isSome_iff_exists.mp hfind
          have hpred : (p.1 == h2) = true := by
            have := List.find?_some hp
            simpa using this
          have hfound : ((d.map (updEntry h2 r)).find? (fun p => p.1 == h2)) =
              some (p.1, { p.2 with
                resorts := p.2.resorts ++ [entryOf r],
                min_driving_time :=
                  updateMin p.2.min_driving_time r.driving_time_minutes }) := by
            rw [find?_map_keyed d h2 _ (updEntry_fst h2 r), hp, Option.map_some']
            unfold updEntry
            rw [if_pos hpred]
          rw [dedupStep_eq_update d r h2 hg hfind]
          rw [hfound]
          simp only [hp]
          rw [extendHome_step]
        | false =>
          have hnone : d.find? (fun p => p.1 == h2) = none :=
            Option.not_isSome_iff_eq_none.mp (by simp [hfind])
          have happ : ((d ++ [(h2, (⟨r, [entryOf r], r.driving_time_minutes⟩ :
              AggregatedHome))]).find? (fun p => p.1 == h2)) =
              some (h2, ⟨r, [entryOf r], r.driving_time_minutes⟩) := by
            rw [List.find?_append, hnone]
            simp
          rw [dedupStep_eq_insert d r h2 hg hfind, happ]
          simp only [hnone]
      · have hfilter : listingsFor h (r :: L) = listingsFor h L := by
          unfold listingsFor
          rw [List.filter_cons_of_neg]
          simp [hg, hh]
        rw [hfilter]
        cases hfind : (d.find? (fun p => p.1 == h2)).isSome with
        | true =>
          rw [dedupStep_eq_update d r h2 hg hfind]
          rw [find?_map_keyed d h _ (updEntry_fst h2 r)]
          cases hd : d.find? (fun p => p.1 == h) with
          | none => rfl
          | some p =>
            have hpred : (p.1 == h) = true := by
              have := List.find?_some hd
              simpa using this
            have hpne : (p.1 == h2) = false := by
              have hp1 : p.1 = h := by simpa using hpred
              rw [hp1]
              simpa using fun he => hh (Eq.symm he)
            rw [Option.map_some']
            have : updEntry h2 r p = p := by
              unfold updEntry
              rw [if_neg (by simp [hpne])]
            rw [this]
        | false =>
          rw [dedupStep_eq_insert d r h2 hg hfind, List.find?_append]
          cases hd : d.find? (fun p => p.1 == h) with
          | none =>
            simp only [Option.none_or]
            rw [List.find?_cons_of_neg _ (by simp [hh]), List.find?_nil]
          | some p => rfl

/-- Specialisation to the actual starting state `homes_dict = {}`. -/
theorem dedup_find (L : List RawListing) (h : String) :
    (((L.foldl dedupStep []).find? (fun p => p.1 == h))) =
      match listingsFor h L with
      | [] => none
      | r0 :: rest =>
        some (h, extendHome ⟨r0, [entryOf r0], r0.driving_time_minutes⟩ rest) := by
  have hbase := foldl_dedupStep_find L [] h
  simpa using hbase

theorem dedup_nodup_keys (L : List RawListing) :
    ∀ d : List (String × AggregatedHome),
      (d.map (fun p => p.1)).Nodup →
      ((L.foldl dedupStep d).map (fun p => p.1)).Nodup := by
  induction L with
  | nil => intro d hd; exact hd
  | cons r L ih =>
    intro d hd
    rw [List.foldl_cons]
    apply ih
    cases hg : goodId r with
    | none => rw [dedupStep_eq_skip d r hg]; exact hd
    | some h2 =>
      cases hfind : (d.find? (fun p => p.1 == h2)).isSome with
      | true =>
        rw [dedupStep_eq_update d r h2 hg hfind]
        have hkeys : (d.map (updEntry h2 r)).map (fun p => p.1) =
            d.map (fun p => p.1) := by
          rw [List.map_map]
          exact List.map_congr_left fun p _ => updEntry_fst h2 r p
        rw [hkeys]
        exact hd
      | false =>
        rw [dedupStep_eq_insert d r h2 hg hfind, List.map_append]
        have hnone : d.find? (fun p => p.1 == h2) = none :=
          Option.not_isSome_iff_eq_none.mp (by simp [hfind])
        have hnotmem : h2 ∉ d.map (fun p => p.1) := by
          intro hmem
          obtain ⟨p, hp, hp2⟩ := List.mem_map.mp hmem
          have := List.find?_eq_none.mp hnone p hp
          exact this (by simp [hp2])
        simp only [List.map_cons, List.map_nil]
        exact List.Nodup.append hd (List.nodup_singleton h2)
          (by simpa [List.disjoint_singleton] using hnotmem)

theorem find?_of_mem_nodup (d : List (String × AggregatedHome))
    (hnd : (d.map (fun p => p.1)).Nodup) (p : String × AggregatedHome)
    (hp : p ∈ d) : d.find? (fun q => q.1 == p.1) = some p := by
  induction d with
  | nil => exact absurd hp (List.not_mem_nil p)
  | cons q d ih =>
    obtain ⟨hq, hd⟩ := List.nodup_cons.mp hnd
    rcases List.mem_cons.mp hp with rfl | hp
    · exact List.find?_cons_of_pos _ (by simp)
    · have hq2 : q.1 ∉ d.map (fun p => p.1) := hq
      have hne : (q.1 == p.1) = false := by
        have hmem : p.1 ∈ d.map (fun p => p.1) := List.mem_map.mpr ⟨p, hp, rfl⟩
        have hqp : q.1 ≠ p.1 := by
          intro he
          rw [he] at hq2
          exact hq2 hmem
        simpa using hqp
      have e2 : ((q :: d).find? (fun x => x.1 == p.1)) = d.find? (fun x => x.1 == p.1) :=
        List.find?_cons_of_neg _ (by simp [hne])
      rw [e2]
      exact ih hd hp

/-- Every entry of `homes_dict` is keyed by its base record's (non-empty)
home id. -/
theorem dedup_key_inv (L : List RawListing) :
    ∀ d : List (String × AggregatedHome),
      (∀ p ∈ d, p.2.base.id = some p.1 ∧ p.1 ≠ "") →
      ∀ p ∈ L.foldl dedupStep d, p.2.base.id = some p.1 ∧ p.1 ≠ "" := by
  induction L with
  | nil => intro d hd; exact hd
  | cons r L ih =>
    intro d hd
    rw [List.foldl_cons]
    apply ih
    cases hg : goodId r with
    | none => rw [dedupStep_eq_skip d r hg]; exact hd
    | some h2 =>
      cases hfind : (d.find? (fun p => p.1 == h2)).isSome with
      | true =>
        rw [dedupStep_eq_update d r h2 hg hfind]
        intro p hp
        obtain ⟨q, hq, rfl⟩ := List.mem_map.mp hp
        have hbase := hd q hq
        unfold updEntry
        by_cases hqk : (q.1 == h2) = true
        · rw [if_pos hqk]
          exact hbase
        · rw [if_neg hqk]
          exact hbase
      | false =>
        rw [dedupStep_eq_insert d r h2 hg hfind]
        intro p hp
        rcases List.mem_append.mp hp with hp | hp
        · exact hd p hp
        · rw [List.mem_singleton] at hp
          subst hp
          obtain ⟨hid, hne⟩ := goodId_eq_some.mp hg
          exact ⟨hid, hne⟩

theorem countP_key_of_nodup (d : List (String × AggregatedHome)) (h : String)
    (hnd : (d.map (fun p => p.1)).Nodup)
    (hfind : (d.find? (fun p => p.1 == h)).isSome = true) :
    d.countP (fun p => p.1 == h) = 1 := by
  induction d with
  | nil => simp at hfind
  | cons q d ih =>
    obtain ⟨hq, hd⟩ := List.nodup_cons.mp hnd
    by_cases hqh : (q.1 == h) = true
    · rw [List.countP_cons, if_pos hqh]
      have hzero : d.countP (fun p => p.1 == h) = 0 := by
        rw [List.countP_eq_zero]
        intro p hp
        have hq2 : q.1 ∉ d.map (fun p => p.1) := hq
        have hmem : p.1 ∈ d.map (fun p => p.1) := List.mem_map.mpr ⟨p, hp, rfl⟩
        have hqh2 : q.1 = h := by simpa using hqh
        intro hph
        have hph2 : p.1 = h := by simpa using hph
        exact hq2 (by rw [hqh2, ← hph2]; exact hmem)
      omega
    · rw [List.countP_cons, if_neg hqh]
      have e2 : ((q :: d).find? (fun p => p.1 == h)) = d.find? (fun p => p.1 == h) :=
        List.find?_cons_of_neg _ hqh
      rw [e2] at hfind
      rw [ih hd hfind]

/-- Every value of `homes_dict` is the aggregation of the (non-empty) list
of listings sharing one non-empty home id, in concatenation order. -/
theorem mem_dedup_values (L : List RawListing) (hm : AggregatedHome)
    (hmem : hm ∈ (L.foldl dedupStep []).map (fun p => p.2)) :
    ∃ h0 r0 rest, listingsFor h0 L = r0 :: rest ∧
      hm = extendHome ⟨r0, [entryOf r0], r0.driving_time_minutes⟩ rest := by
  obtain ⟨p, hp, hp2⟩ := List.mem_map.mp hmem
  have hnd := dedup_nodup_keys L [] (by simp)
  have hfind := find?_of_mem_nodup _ hnd p hp
  rw [dedup_find L p.1] at hfind
  cases hl : listingsFor p.1 L with
  | nil =>
    rw [hl] at hfind
    exact absurd hfind (by simp)
  | cons r0 rest =>
    rw [hl] at hfind
    have hpq := Option.some.inj hfind
    refine ⟨p.1, r0, rest, hl, ?_⟩
    rw [← hp2, ← hpq]

/-- Conversely, any non-empty id carried by some listing owns exactly one
dict entry, namely the canonical aggregation. -/
theorem dedup_values_of_listings (L : List RawListing) (h : String)
    (r0 : RawListing) (rest : List RawListing)
    (hl : listingsFor h L = r0 :: rest) :
    extendHome ⟨r0, [entryOf r0], r0.driving_time_minutes⟩ rest ∈
      (L.foldl dedupStep []).map (fun p => p.2) := by
  have hfind := dedup_find L h
  rw [hl] at hfind
  exact List.mem_map.mpr
    ⟨(h, extendHome ⟨r0, [entryOf r0], r0.driving_time_minutes⟩ rest),
      List.mem_of_find?_eq_some hfind, rfl⟩

theorem updateMin_eq_none {a b : Option ℚ} :
    updateMin a b = none ↔ (a = none ∧ b = none) := by
  cases a <;> cases b <;> simp [updateMin]
  split_ifs <;> simp

theorem updateMin_le_left (c : ℚ) (b : Option ℚ) :
    ∃ m, updateMin (some c) b = some m ∧ m ≤ c := by
  cases b with
  | none => exact ⟨c, rfl, le_refl c⟩
  | some t =>
    by_cases hlt : t < c
    · refine ⟨t, ?_, le_of_lt hlt⟩
      show (if t < c then some t else some c) = some t
      rw [if_pos hlt]
    · refine ⟨c, ?_, le_refl c⟩
      show (if t < c then some t else some c) = some c
      rw [if_neg hlt]

theorem updateMin_le_right (a : Option ℚ) (t : ℚ) :
    ∃ m, updateMin a (some t) = some m ∧ m ≤ t := by
  cases a with
  | none => exact ⟨t, rfl, le_refl t⟩
  | some c =>
    by_cases hlt : t < c
    · refine ⟨t, ?_, le_refl t⟩
      show (if t < c then some t else some c) = some t
      rw [if_pos hlt]
    · refine ⟨c, ?_, le_of_not_lt hlt⟩
      show (if t < c then some t else some c) = some c
      rw [if_neg hlt]

theorem updateMin_some_src {a b : Option ℚ} {q : ℚ}
    (h : updateMin a b = some q) : a = some q ∨ b = some q := by
  cases a with
  | none =>
    cases b with
    | none => exact absurd h (by simp [updateMin])
    | some t => exact Or.inr h
  | some c =>
    cases b with
    | none => exact Or.inl h
    | some t =>
      have h2 : (if t < c then some t else some c) = some q := h
      split_ifs at h2 with hlt
      · exact Or.inr h2
      · exact Or.inl h2

/-- The fold of `updateMin` over a block of listings computes the minimum
of the known driving times (with the accumulator participating): the
result is `none` iff everything is unknown, and any `some` result is
attained and is a lower bound. -/
theorem foldl_updateMin_none (l : List RawListing) :
    ∀ acc : Option ℚ,
      (l.foldl (fun a r => updateMin a r.driving_time_minutes) acc = none ↔
        (acc = none ∧ ∀ r ∈ l, r.driving_time_minutes = none)) := by
  induction l with
  | nil => intro acc; simp
  | cons r l ih =>
    intro acc
    rw [List.foldl_cons, ih]
    rw [updateMin_eq_none]
    constructor
    · rintro ⟨⟨h1, h2⟩, h3⟩
      exact ⟨h1, fun r2 hr2 => by
        rcases List.mem_cons.mp hr2 with rfl | hr2
        · exact h2
        · exact h3 r2 hr2⟩
    · rintro ⟨h1, h2⟩
      exact ⟨⟨h1, h2 r (List.mem_cons_self r l)⟩,
        fun r2 hr2 => h2 r2 (List.mem_cons_of_mem r hr2)⟩

theorem foldl_updateMin_some (l : List RawListing) :
    ∀ (acc : Option ℚ) (q : ℚ),
      l.foldl (fun a r => updateMin a r.driving_time_minutes) acc = some q →
      ((acc = some q ∨ ∃ r ∈ l, r.driving_time_minutes = some q) ∧
       (∀ c, acc = some c → q ≤ c) ∧
       (∀ r ∈ l, ∀ t, r.driving_time_minutes = some t → q ≤ t)) := by
  induction l with
  | nil =>
    intro acc q h
    rw [List.foldl_nil] at h
    refine ⟨Or.inl h, ?_, by simp⟩
    intro c hc
    rw [h] at hc
    rw [Option.some.inj hc]
  | cons r l ih =>
    intro acc q h
    rw [List.foldl_cons] at h
    obtain ⟨h1, h2, h3⟩ := ih _ q h
    refine ⟨?_, ?_, ?_⟩
    · rcases h1 with h1 | ⟨r2, hr2, ht⟩
      · rcases updateMin_some_src h1 with hsrc | hsrc
        · exact Or.inl hsrc
        · exact Or.inr ⟨r, List.mem_cons_self r l, hsrc⟩
      · exact Or.inr ⟨r2, List.mem_cons_of_mem r hr2, ht⟩
    · intro c hc
      subst hc
      obtain ⟨m, hm1, hm2⟩ := updateMin_le_left c r.driving_time_minutes
      exact le_trans (h2 m hm1) hm2
    · intro r2 hr2 t ht
      rcases List.mem_cons.mp hr2 with rfl | hr2
      · obtain ⟨m, hm1, hm2⟩ := updateMin_le_right acc t
        rw [← ht] at hm1
        exact le_trans (h2 m hm1) hm2
      · exact h3 r2 hr2 t ht

/-- Unfolding of membership in the final aggregated output: a member is an
inner-sorted copy of a `homes_dict` value. -/
theorem mem_aggregate (L : List RawListing) (hm : AggregatedHome) :
    hm ∈ resort_map_multiple_aggregate L ↔
      ∃ hm0, hm0 ∈ (L.foldl dedupStep []).map (fun p => p.2) ∧
        hm = sortHomeResorts hm0 := by
  unfold resort_map_multiple_aggregate
  rw [(pySort_perm _ _).mem_iff, List.mem_map]
  constructor
  · rintro ⟨hm0, h1, h2⟩
    exact ⟨hm0, h1, h2.symm⟩
  · rintro ⟨hm0, h1, h2⟩
    exact ⟨hm0, h1, h2.symm⟩

theorem some_beq_some (x y : String) :
    ((some x == some y) : Bool) = (x == y) := rfl

/-- Claim C1: every (necessarily non-empty) home id occurring among the
collected raw listings yields exactly one `AggregatedHome`; its base
fields are those of the first listing with that id in concatenation
order, and the `resorts` list has exactly one entry per listing with that
id (so two listings sharing an id from two different resorts give one
home with two `resorts` entries). -/
theorem resort_map_multiple_aggregate_dedup (L : List RawListing) (h : String)
    (r0 : RawListing) (rest : List RawListing)
    (hocc : listingsFor h L = r0 :: rest) :
    ((resort_map_multiple_aggregate L).countP
      (fun hm => hm.base.id == some h)) = 1 ∧
    ∃ hm ∈ resort_map_multiple_aggregate L,
      hm.base = r0 ∧
      hm.base.id = some h ∧
      hm.resorts.Perm ((r0 :: rest).map entryOf) ∧
      hm.resorts.length = (listingsFor h L).length := by
  have hnd := dedup_nodup_keys L [] (by simp)
  have hr0 : goodId r0 = some h := by
    have hmem : r0 ∈ listingsFor h L := by
      rw [hocc]
      exact List.mem_cons_self _ _
    have := List.of_mem_filter hmem
    simpa using this
  obtain ⟨hr0id, hr0ne⟩ := goodId_eq_some.mp hr0
  constructor
  · unfold resort_map_multiple_aggregate
    rw [(pySort_perm _ _).countP_eq, List.countP_map, List.countP_map]
    have hpt : ∀ p ∈ L.foldl dedupStep [],
        ((((fun hm : AggregatedHome => hm.base.id == some h) ∘
          sortHomeResorts) ∘ (fun p : String × AggregatedHome => p.2)) p = true ↔
        (fun p : String × AggregatedHome => p.1 == h) p = true) := by
      intro p hp
      obtain ⟨hid, hne2⟩ := dedup_key_inv L [] (by simp) p hp
      show ((p.2.base.id == some h) = true ↔ (p.1 == h) = true)
      rw [hid, some_beq_some]
    rw [List.countP_congr hpt]
    refine countP_key_of_nodup _ h hnd ?_
    rw [dedup_find L h, hocc]
    rfl
  · refine ⟨sortHomeResorts
      (extendHome ⟨r0, [entryOf r0], r0.driving_time_minutes⟩ rest),
      ?_, rfl, hr0id, ?_, ?_⟩
    · exact (mem_aggregate L _).mpr
        ⟨extendHome ⟨r0, [entryOf r0], r0.driving_time_minutes⟩ rest,
          dedup_values_of_listings L h r0 rest hocc, rfl⟩
    · refine (pySort_perm _ _).trans ?_
      show ([entryOf r0] ++ rest.map entryOf).Perm _
      rw [List.singleton_append, ← List.map_cons]
    · rw [hocc]
      have hlen := (pySort_perm entryLe
        (extendHome ⟨r0, [entryOf r0], r0.driving_time_minutes⟩ rest).resorts).length_eq
      show (pySort entryLe _).length = _
      rw [hlen]
      show ([entryOf r0] ++ rest.map entryOf).length = _
      simp

/-- Claim C2: every aggregated home has a non-empty `resorts` list, and
its `min_driving_time` is exactly the minimum of the known driving times
among its `resorts` entries — `none` precisely when every entry's
driving time is unknown, and any known value is attained by some entry
and bounds every known entry from below. -/
theorem resort_map_multiple_aggregate_min_invariant (L : List RawListing)
    (hm : AggregatedHome) (hmem : hm ∈ resort_map_multiple_aggregate L) :
    hm.resorts ≠ [] ∧
    (hm.min_driving_time = none ↔
      ∀ e ∈ hm.resorts, e.driving_time_minutes = none) ∧
    (∀ q : ℚ, hm.min_driving_time = some q →
      (∃ e ∈ hm.resorts, e.driving_time_minutes = some q) ∧
      ∀ e ∈ hm.resorts, ∀ t : ℚ, e.driving_time_minutes = some t → q ≤ t) := by
  obtain ⟨hm0, hv, rfl⟩ := (mem_aggregate L hm).mp hmem
  obtain ⟨h0, r0, rest, hl, rfl⟩ := mem_dedup_values L hm0 hv
  have hres : (extendHome ⟨r0, [entryOf r0], r0.driving_time_minutes⟩
      rest).resorts = (r0 :: rest).map entryOf := by
    show [entryOf r0] ++ rest.map entryOf = _
    rw [List.singleton_append, ← List.map_cons]
  have hmemres : ∀ e : ResortEntry,
      (e ∈ (sortHomeResorts (extendHome ⟨r0, [entryOf r0],
        r0.driving_time_minutes⟩ rest)).resorts ↔
        ∃ r2 ∈ r0 :: rest, entryOf r2 = e) := by
    intro e
    show e ∈ pySort entryLe _ ↔ _
    rw [(pySort_perm _ _).mem_iff, hres, List.mem_map]
  have hmin : (sortHomeResorts (extendHome ⟨r0, [entryOf r0],
      r0.driving_time_minutes⟩ rest)).min_driving_time =
      rest.foldl (fun a r => updateMin a r.driving_time_minutes)
        r0.driving_time_minutes := rfl
  refine ⟨?_, ?_, ?_⟩
  · intro hnil
    have := (hmemres (entryOf r0)).mpr ⟨r0, List.mem_cons_self _ _, rfl⟩
    rw [hnil] at this
    exact absurd this (List.not_mem_nil _)
  · rw [hmin, foldl_updateMin_none]
    constructor
    · rintro ⟨h1, h2⟩ e he
      obtain ⟨r2, hr2, rfl⟩ := (hmemres e).mp he
      rcases List.mem_cons.mp hr2 with rfl | hr2
      · exact h1
      · exact h2 r2 hr2
    · intro hall
      refine ⟨?_, ?_⟩
      · exact hall (entryOf r0) ((hmemres _).mpr ⟨r0, List.mem_cons_self _ _, rfl⟩)
      · intro r2 hr2
        exact hall (entryOf r2)
          ((hmemres _).mpr ⟨r2, List.mem_cons_of_mem _ hr2, rfl⟩)
  · intro q hq
    rw [hmin] at hq
    obtain ⟨h1, h2, h3⟩ := foldl_updateMin_some rest _ q hq
    constructor
    · rcases h1 with h1 | ⟨r2, hr2, ht⟩
      · exact ⟨entryOf r0, (hmemres _).mpr ⟨r0, List.mem_cons_self _ _, rfl⟩, h1⟩
      · exact ⟨entryOf r2,
          (hmemres _).mpr ⟨r2, List.mem_cons_of_mem _ hr2, rfl⟩, ht⟩
    · intro e he t ht
      obtain ⟨r2, hr2, rfl⟩ := (hmemres e).mp he
      rcases List.mem_cons.mp hr2 with rfl | hr2
      · exact h2 t ht
      · exact h3 r2 hr2 t ht

/-- Claim C3: within each aggregated home the `resorts` list is sorted
ascending by driving time with unknown (`None`) treated as `+inf`
(hence last), the list of homes is sorted ascending by
`min_driving_time` with unknown last, and consequently once a home with
unknown minimum appears every later home's minimum is unknown too. -/
theorem resort_map_multiple_aggregate_sorted (L : List RawListing)
    (hm : AggregatedHome) (hmem : hm ∈ resort_map_multiple_aggregate L) :
    hm.resorts.Pairwise (fun x y => entryLe x y = true) ∧
    (resort_map_multiple_aggregate L).Pairwise (fun a b => homeLe a b = true) ∧
    hm.resorts.Pairwise (fun x y =>
      x.driving_time_minutes = none → y.driving_time_minutes = none) ∧
    (resort_map_multiple_aggregate L).Pairwise (fun a b =>
      a.min_driving_time = none → b.min_driving_time = none) := by
  have hinner : hm.resorts.Pairwise (fun x y => entryLe x y = true) := by
    obtain ⟨hm0, hv, rfl⟩ := (mem_aggregate L hm).mp hmem
    exact pySort_pairwise entryLe (fun a b => timeLe_total _ _)
      (fun a b c => timeLe_trans _ _ _) hm0.resorts
  have houter : (resort_map_multiple_aggregate L).Pairwise
      (fun a b => homeLe a b = true) := by
    unfold resort_map_multiple_aggregate
    exact pySort_pairwise homeLe (fun a b => timeLe_total _ _)
      (fun a b c => timeLe_trans _ _ _) _
  refine ⟨hinner, houter, ?_, ?_⟩
  · refine hinner.imp ?_
    intro x y hxy hx
    cases hy : y.driving_time_minutes with
    | none => rfl
    | some t =>
      unfold entryLe at hxy
      rw [hx, hy] at hxy
      exact absurd hxy (by simp [timeLe])
  · refine houter.imp ?_
    intro x y hxy hx
    cases hy : y.min_driving_time with
    | none => rfl
    | some t =>
      unfold homeLe at hxy
      rw [hx, hy] at hxy
      exact absurd hxy (by simp [timeLe])

/-- The deduplication loop never looks at listings with a falsy home id:
folding `L` is folding its good-id sublist. -/
theorem foldl_dedupStep_filter (L : List RawListing) :
    ∀ d : List (String × AggregatedHome),
      L.foldl dedupStep d =
        (L.filter (fun r => (goodId r).isSome)).foldl dedupStep d := by
  induction L with
  | nil => intro d; rfl
  | cons r L ih =>
    intro d
    cases hg : goodId r with
    | none =>
      rw [List.foldl_cons, dedupStep_eq_skip d r hg,
        List.filter_cons_of_neg (by simp [hg])]
      exact ih d
    | some h2 =>
      rw [List.foldl_cons, List.filter_cons_of_pos (by simp [hg]),
        List.foldl_cons]
      exact ih (dedupStep d r)

/-- Claim C10: listings whose home id is missing or empty are silently
dropped — the aggregate output is unchanged when they are removed from
the input, and every aggregated home carries a non-empty id. -/
theorem resort_map_multiple_aggregate_falsy_dropped (L : List RawListing)
    (hm : AggregatedHome) (hmem : hm ∈ resort_map_multiple_aggregate L) :
    (∃ h, hm.base.id = some h ∧ h ≠ "") ∧
    resort_map_multiple_aggregate L =
      resort_map_multiple_aggregate (L.filter (fun r => (goodId r).isSome)) := by
  constructor
  · obtain ⟨hm0, hv, rfl⟩ := (mem_aggregate L hm).mp hmem
    obtain ⟨p, hp, hp2⟩ := List.mem_map.mp hv
    obtain ⟨hid, hne⟩ := dedup_key_inv L [] (by simp) p hp
    refine ⟨p.1, ?_, hne⟩
    show hm0.base.id = some p.1
    rw [← hp2]
    exact hid
  · unfold resort_map_multiple_aggregate
    rw [foldl_dedupStep_filter L []]

/-- Claim C9: `get_driving_time` never surfaces an error — it is a total
function into `minutes | unknown`; the provider is called at most once
(never when the credential is falsy), the result is unknown whenever the
credential is missing, the call raises, the body is malformed, or no
route exists, and a known result only arises from a well-formed first
route, as its duration divided by 60. -/
theorem get_driving_time_spec (api_key : Option String)
    (rlat rlon hlat hlon : ℚ) (resp : ProviderResponse) :
    ((get_driving_time api_key rlat rlon hlat hlon resp).2 ≤ 1) ∧
    ((api_key = none ∨ api_key = some ("")) →
      get_driving_time api_key rlat rlon hlat hlon resp = (none, 0)) ∧
    (resp = .raised →
      (get_driving_time api_key rlat rlon hlat hlon resp).1 = none) ∧
    (resp = .badJson →
      (get_driving_time api_key rlat rlon hlat hlon resp).1 = none) ∧
    (resp = .routes [] →
      (get_driving_time api_key rlat rlon hlat hlon resp).1 = none) ∧
    (∀ rs, resp = .routes (.malformed :: rs) →
      (get_driving_time api_key rlat rlon hlat hlon resp).1 = none) ∧
    (∀ q, (get_driving_time api_key rlat rlon hlat hlon resp).1 = some q →
      ¬(api_key = none ∨ api_key = some ("")) ∧
      ∃ d rs, resp = .routes (.route d :: rs) ∧ q = d / 60) := by
  by_cases hk : api_key = none ∨ api_key = some ("")
  · unfold get_driving_time
    rw [if_pos hk]
    refine ⟨Nat.zero_le 1, fun _ => rfl, fun _ => rfl, fun _ => rfl, fun _ => rfl,
      fun _ _ => rfl, ?_⟩
    intro q hq
    exact absurd hq (by simp)
  · unfold get_driving_time
    rw [if_neg hk]
    cases resp with
    | raised =>
      refine ⟨Nat.le_refl 1, fun h => absurd h hk, fun _ => rfl, by simp, by simp,
        by simp, ?_⟩
      intro q hq
      exact absurd hq (by simp)
    | badJson =>
      refine ⟨Nat.le_refl 1, fun h => absurd h hk, by simp, fun _ => rfl, by simp,
        by simp, ?_⟩
      intro q hq
      exact absurd hq (by simp)
    | routes rs =>
      cases rs with
      | nil =>
        refine ⟨Nat.le_refl 1, fun h => absurd h hk, by simp, by simp, fun _ => rfl,
          by simp, ?_⟩
        intro q hq
        exact absurd hq (by simp)
      | cons r rs2 =>
        cases r with
        | malformed =>
          refine ⟨Nat.le_refl 1, fun h => absurd h hk, by simp, by simp, by simp,
            ?_, ?_⟩
          · intro rs3 h
            rfl
          · intro q hq
            exact absurd hq (by simp)
        | route d =>
          refine ⟨Nat.le_refl 1, fun h => absurd h hk, by simp, by simp, by simp,
            by simp, ?_⟩
          intro q hq
          have hqd : q = d / 60 := (Option.some.inj hq).symm
          exact ⟨hk, d, rs2, rfl, hqd⟩

/-- Witness for C9 at a concrete input (provider raising, key present). -/
theorem get_driving_time_spec_witness :
    ((get_driving_time (some ("key")) 39 (-106) 40 (-105)
        ProviderResponse.raised).2 ≤ 1) ∧
    (((some ("key") : Option String) = none ∨
        (some ("key") : Option String) = some ("")) →
      get_driving_time (some ("key")) 39 (-106) 40 (-105)
        ProviderResponse.raised = (none, 0)) ∧
    (ProviderResponse.raised = ProviderResponse.raised →
      (get_driving_time (some ("key")) 39 (-106) 40 (-105)
        ProviderResponse.raised).1 = none) ∧
    (ProviderResponse.raised = ProviderResponse.badJson →
      (get_driving_time (some ("key")) 39 (-106) 40 (-105)
        ProviderResponse.raised).1 = none) ∧
    (ProviderResponse.raised = ProviderResponse.routes [] →
      (get_driving_time (some ("key")) 39 (-106) 40 (-105)
        ProviderResponse.raised).1 = none) ∧
    (∀ rs, ProviderResponse.raised = ProviderResponse.routes
        (RouteJson.malformed :: rs) →
      (get_driving_time (some ("key")) 39 (-106) 40 (-105)
        ProviderResponse.raised).1 = none) ∧
    (∀ q, (get_driving_time (some ("key")) 39 (-106) 40 (-105)
        ProviderResponse.raised).1 = some q →
      ¬((some ("key") : Option String) = none ∨
        (some ("key") : Option String) = some ("")) ∧
      ∃ d rs, ProviderResponse.raised = ProviderResponse.routes
        (RouteJson.route d :: rs) ∧ q = d / 60) :=
  get_driving_time_spec (some ("key")) 39 (-106) 40 (-105)
    ProviderResponse.raised

theorem formatOne_fields (ss se : Date) (r : AggregatedHome)
    (res : SearchResult) (h : formatOne ss se r = some res) :
    res.id = r.base.id ∧
    res.driveTime = r.base.driving_time_minutes ∧
    res.availabilities =
      r.base.availabilitiesWithoutBookedDates.filter (overlapB ss se) ∧
    res.distance = (match r.base.driving_time_minutes with
      | some q => if q = 0 then "N/A" else fmt1f q ++ " min"
      | none => "N/A") ∧
    res.imageUrl = (match r.base.imageUrl with
      | some s => if s = "" then placeholder_image else s
      | none => placeholder_image) := by
  unfold formatOne at h
  by_cases hc : 0 < (r.base.availabilitiesWithoutBookedDates.filter
      (overlapB ss se)).length
  · rw [if_pos hc] at h
    obtain rfl := Option.some.inj h.symm
    exact ⟨rfl, rfl, rfl, rfl, rfl⟩
  · rw [if_neg hc] at h
    exact absurd h (by simp)

theorem formatOne_isSome (ss se : Date) (r : AggregatedHome) :
    (formatOne ss se r).isSome = true ↔
      ∃ a ∈ r.base.availabilitiesWithoutBookedDates, overlapB ss se a = true := by
  unfold formatOne
  by_cases hc : 0 < (r.base.availabilitiesWithoutBookedDates.filter
      (overlapB ss se)).length
  · rw [if_pos hc]
    simp only [Option.isSome_some, true_iff]
    have hne : r.base.availabilitiesWithoutBookedDates.filter
        (overlapB ss se) ≠ [] := by
      intro hnil
      rw [hnil] at hc
      exact absurd hc (by simp)
    obtain ⟨a, ha⟩ := List.exists_mem_of_ne_nil _ hne
    obtain ⟨ha1, ha2⟩ := List.mem_filter.mp ha
    exact ⟨a, ha1, ha2⟩
  · rw [if_neg hc]
    simp only [Option.isSome_none, Bool.false_eq_true, false_iff]
    rintro ⟨a, ha, hov⟩
    exact hc (List.length_pos.mpr
      (List.ne_nil_of_mem (List.mem_filter.mpr ⟨ha, hov⟩)))

theorem length_filterMap_eq_countP (f : α → Option β) (p : α → Bool)
    (l : List α) (h : ∀ a ∈ l, (f a).isSome = p a) :
    (l.filterMap f).length = l.countP p := by
  induction l with
  | nil => rfl
  | cons a l ih =>
    have ha := h a (List.mem_cons_self a l)
    have hl := fun b hb => h b (List.mem_cons_of_mem a hb)
    rw [List.countP_cons]
    cases hfa : f a with
    | none =>
      rw [List.filterMap_cons_none hfa, ih hl]
      rw [hfa] at ha
      rw [← ha]
      simp
    | some b =>
      rw [List.filterMap_cons_some hfa, List.length_cons, ih hl]
      rw [hfa] at ha
      rw [← ha]
      simp

/-- Claim C7: a home survives the availability filter of `search` iff at
least one of its windows passes the inclusive overlap test
`availStart <= searchEnd ∧ availEnd >= searchStart`, the emitted row's
`availabilities` are exactly the overlapping windows, and the number of
rows equals the number of homes with an overlapping window. -/
theorem search_overlap_filter (ss se : Date) (homes : List AggregatedHome)
    (hm : AggregatedHome) (hmem : hm ∈ homes)
    (hov : ∃ a ∈ hm.base.availabilitiesWithoutBookedDates,
      overlapB ss se a = true) :
    (∃ res ∈ format_search_results ss se homes,
      res.id = hm.base.id ∧
      res.availabilities =
        hm.base.availabilitiesWithoutBookedDates.filter (overlapB ss se)) ∧
    (∀ res ∈ format_search_results ss se homes, ∃ hm2 ∈ homes,
      res.id = hm2.base.id ∧
      (∃ a ∈ hm2.base.availabilitiesWithoutBookedDates,
        overlapB ss se a = true) ∧
      res.availabilities =
        hm2.base.availabilitiesWithoutBookedDates.filter (overlapB ss se)) ∧
    (format_search_results ss se homes).length =
      homes.countP
        (fun r => r.base.availabilitiesWithoutBookedDates.any (overlapB ss se)) := by
  refine ⟨?_, ?_, ?_⟩
  · have hsome : (formatOne ss se hm).isSome = true :=
      (formatOne_isSome ss se hm).mpr hov
    obtain ⟨res, hres⟩ := Option.isSome_iff_exists.mp hsome
    obtain ⟨h1, h2, h3, h4, h5⟩ := formatOne_fields ss se hm res hres
    exact ⟨res, List.mem_filterMap.mpr ⟨hm, hmem, hres⟩, h1, h3⟩
  · intro res hres
    obtain ⟨hm2, hmem2, hres2⟩ := List.mem_filterMap.mp hres
    obtain ⟨h1, h2, h3, h4, h5⟩ := formatOne_fields ss se hm2 res hres2
    refine ⟨hm2, hmem2, h1, ?_, h3⟩
    exact (formatOne_isSome ss se hm2).mp (by rw [hres2]; rfl)
  · apply length_filterMap_eq_countP
    intro r2 hr2
    cases hany : r2.base.availabilitiesWithoutBookedDates.any (overlapB ss se) with
    | true =>
      exact (formatOne_isSome ss se r2).mpr (List.any_eq_true.mp hany)
    | false =>
      cases hs : (formatOne ss se r2).isSome with
      | true =>
        obtain ⟨a, ha, hov2⟩ := (formatOne_isSome ss se r2).mp hs
        have : r2.base.availabilitiesWithoutBookedDates.any
            (overlapB ss se) = true := List.any_eq_true.mpr ⟨a, ha, hov2⟩
        rw [hany] at this
        exact absurd this (by simp)
      | false => rfl

theorem fmt1f_append_ne_na (q : ℚ) : fmt1f q ++ " min" ≠ "N/A" := by
  intro h
  have hlen := congrArg String.length h
  rw [String.length_append] at hlen
  have h4 : (" min" : String).length = 4 := by decide
  have h3 : ("N/A" : String).length = 3 := by decide
  omega

/-- Claim C8 (amended): the emitted `distance` string formats the home
dict's own `driving_time_minutes` value — the FIRST-SEEN listing's
driving time, not the home's minimum — under a Python truthiness test,
so it is `"N/A"` exactly when that value is unknown or zero and
`"{x:.1f} min"` of that value otherwise; the image URL falls back to the
fixed placeholder exactly under the truthiness test `imageUrl or default`
(missing or empty string). -/
theorem search_distance_format (ss se : Date) (homes : List AggregatedHome)
    (hm : AggregatedHome) (hmem : hm ∈ homes)
    (hov : ∃ a ∈ hm.base.availabilitiesWithoutBookedDates,
      overlapB ss se a = true) :
    ∃ res ∈ format_search_results ss se homes,
      res.driveTime = hm.base.driving_time_minutes ∧
      (res.distance = "N/A" ↔
        (hm.base.driving_time_minutes = none ∨
          hm.base.driving_time_minutes = some 0)) ∧
      (∀ q : ℚ, hm.base.driving_time_minutes = some q → q ≠ 0 →
        res.distance = fmt1f q ++ " min") ∧
      ((hm.base.imageUrl = none ∨ hm.base.imageUrl = some ("")) →
        res.imageUrl = placeholder_image) ∧
      (∀ s : String, hm.base.imageUrl = some s → s ≠ "" →
        res.imageUrl = s) := by
  have hsome : (formatOne ss se hm).isSome = true :=
    (formatOne_isSome ss se hm).mpr hov
  obtain ⟨res, hres⟩ := Option.isSome_iff_exists.mp hsome
  obtain ⟨h1, h2, h3, h4, h5⟩ := formatOne_fields ss se hm res hres
  refine ⟨res, List.mem_filterMap.mpr ⟨hm, hmem, hres⟩, h2, ?_, ?_, ?_, ?_⟩
  · rw [h4]
    cases ht : hm.base.driving_time_minutes with
    | none => simp
    | some q =>
      by_cases hq : q = 0
      · subst hq
        simp
      · rw [show (match some q with
            | some q => if q = 0 then "N/A" else fmt1f q ++ " min"
            | none => "N/A") = if q = 0 then "N/A" else fmt1f q ++ " min"
            from rfl, if_neg hq]
        constructor
        · intro hd
          exact absurd hd (fmt1f_append_ne_na q)
        · rintro (hd | hd)
          · exact absurd hd (by simp)
          · exact absurd (Option.some.inj hd) hq
  · intro q ht hq
    rw [h4, ht]
    show (if q = 0 then "N/A" else fmt1f q ++ " min") = _
    rw [if_neg hq]
  · intro himg
    rw [h5]
    rcases himg with himg | himg <;> rw [himg]
    rfl
  · intro s hs hsne
    rw [h5, hs]
    show (if s = "" then placeholder_image else s) = s
    rw [if_neg hsne]

/-- Counterexample to C8 as stated: home `h1` is 47 minutes from the
first-seen resort (Aspen) and 12 minutes from Vail, so its minimum
driving time is 12, yet the emitted `distance` string is `"47.0 min"`
(the first-seen listing's time, line 764 reads the base record's
`driving_time_minutes`, not `min_driving_time`), not `"12.0 min"`. -/
theorem search_distance_counterexample :
    ((format_search_results ⟨2025, 1, 10⟩ ⟨2025, 1, 20⟩
        (resort_map_multiple_aggregate [listingA, listingB])).map
      (fun res => res.distance)) = ["47.0 min"] ∧
    ((format_search_results ⟨2025, 1, 10⟩ ⟨2025, 1, 20⟩
        (resort_map_multiple_aggregate [listingA, listingB])).map
      (fun res => res.driveTime)) = [some 47] ∧
    ((resort_map_multiple_aggregate [listingA, listingB]).map
      (fun hm => hm.min_driving_time)) = [some 12] ∧
    fmt1f 12 ++ " min" = "12.0 min" ∧
    ("47.0 min" : String) ≠ "12.0 min" := by
  refine ⟨by decide, by decide, by decide, by decide, by decide⟩

/-- Witness for C1: two listings sharing id `h1` from Aspen and Vail give
exactly one aggregated home with two `resorts` entries. -/
theorem resort_map_multiple_aggregate_dedup_witness :
    (listingsFor ("h1") [listingA, listingB] = listingA :: [listingB]) ∧
    (((resort_map_multiple_aggregate [listingA, listingB]).countP
      (fun hm => hm.base.id == some ("h1"))) = 1 ∧
    ∃ hm ∈ resort_map_multiple_aggregate [listingA, listingB],
      hm.base = listingA ∧
      hm.base.id = some ("h1") ∧
      hm.resorts.Perm ((listingA :: [listingB]).map entryOf) ∧
      hm.resorts.length = (listingsFor ("h1") [listingA, listingB]).length) :=
  ⟨by decide, resort_map_multiple_aggregate_dedup [listingA, listingB] ("h1")
    listingA [listingB] (by decide)⟩

/-- Witness for C2 at the concrete aggregate of `[listingA]`. -/
theorem resort_map_multiple_aggregate_min_invariant_witness :
    (sampleHome ∈ resort_map_multiple_aggregate [listingA]) ∧
    (sampleHome.resorts ≠ [] ∧
    (sampleHome.min_driving_time = none ↔
      ∀ e ∈ sampleHome.resorts, e.driving_time_minutes = none) ∧
    (∀ q : ℚ, sampleHome.min_driving_time = some q →
      (∃ e ∈ sampleHome.resorts, e.driving_time_minutes = some q) ∧
      ∀ e ∈ sampleHome.resorts, ∀ t : ℚ,
        e.driving_time_minutes = some t → q ≤ t)) :=
  ⟨by decide,
    resort_map_multiple_aggregate_min_invariant [listingA] sampleHome (by decide)⟩

/-- Witness for C3 at the concrete aggregate of `[listingA]`. -/
theorem resort_map_multiple_aggregate_sorted_witness :
    (sampleHome ∈ resort_map_multiple_aggregate [listingA]) ∧
    (sampleHome.resorts.Pairwise (fun x y => entryLe x y = true) ∧
    (resort_map_multiple_aggregate [listingA]).Pairwise
      (fun a b => homeLe a b = true) ∧
    sampleHome.resorts.Pairwise (fun x y =>
      x.driving_time_minutes = none → y.driving_time_minutes = none) ∧
    (resort_map_multiple_aggregate [listingA]).Pairwise (fun a b =>
      a.min_driving_time = none → b.min_driving_time = none)) :=
  ⟨by decide,
    resort_map_multiple_aggregate_sorted [listingA] sampleHome (by decide)⟩

/-- Witness for C10: a listing with an empty id contributes nothing. -/
theorem resort_map_multiple_aggregate_falsy_dropped_witness :
    (sampleHome ∈ resort_map_multiple_aggregate [listingNoId, listingA]) ∧
    ((∃ h, sampleHome.base.id = some h ∧ h ≠ "") ∧
    resort_map_multiple_aggregate [listingNoId, listingA] =
      resort_map_multiple_aggregate
        ([listingNoId, listingA].filter (fun r => (goodId r).isSome))) :=
  ⟨by decide,
    resort_map_multiple_aggregate_falsy_dropped [listingNoId, listingA]
      sampleHome (by decide)⟩

/-- Witness for C7 at the spec's concrete example: search window
2025-01-10..2025-01-20, availability 2025-01-01..2025-01-12 overlaps
(home kept) while 2025-01-21..2025-01-25 would not. -/
theorem search_overlap_filter_witness :
    (overlapB ⟨2025, 1, 10⟩ ⟨2025, 1, 20⟩ (⟨2025, 1, 1⟩, ⟨2025, 1, 12⟩) = true ∧
      overlapB ⟨2025, 1, 10⟩ ⟨2025, 1, 20⟩ (⟨2025, 1, 21⟩, ⟨2025, 1, 25⟩) = false) ∧
    ((∃ res ∈ format_search_results ⟨2025, 1, 10⟩ ⟨2025, 1, 20⟩ [sampleHome],
      res.id = sampleHome.base.id ∧
      res.availabilities =
        sampleHome.base.availabilitiesWithoutBookedDates.filter
          (overlapB ⟨2025, 1, 10⟩ ⟨2025, 1, 20⟩)) ∧
    (∀ res ∈ format_search_results ⟨2025, 1, 10⟩ ⟨2025, 1, 20⟩ [sampleHome],
      ∃ hm2 ∈ [sampleHome],
      res.id = hm2.base.id ∧
      (∃ a ∈ hm2.base.availabilitiesWithoutBookedDates,
        overlapB ⟨2025, 1, 10⟩ ⟨2025, 1, 20⟩ a = true) ∧
      res.availabilities =
        hm2.base.availabilitiesWithoutBookedDates.filter
          (overlapB ⟨2025, 1, 10⟩ ⟨2025, 1, 20⟩)) ∧
    (format_search_results ⟨2025, 1, 10⟩ ⟨2025, 1, 20⟩ [sampleHome]).length =
      ([sampleHome] : List AggregatedHome).countP
        (fun r => r.base.availabilitiesWithoutBookedDates.any
          (overlapB ⟨2025, 1, 10⟩ ⟨2025, 1, 20⟩))) :=
  ⟨⟨by decide, by decide⟩,
    search_overlap_filter ⟨2025, 1, 10⟩ ⟨2025, 1, 20⟩ [sampleHome] sampleHome
      (by decide) (by decide)⟩

/-- Witness for the amended C8 at the concrete single-listing home. -/
theorem search_distance_format_witness :
    (sampleHome ∈ [sampleHome]) ∧
    (∃ res ∈ format_search_results ⟨2025, 1, 10⟩ ⟨2025, 1, 20⟩ [sampleHome],
      res.driveTime = sampleHome.base.driving_time_minutes ∧
      (res.distance = "N/A" ↔
        (sampleHome.base.driving_time_minutes = none ∨
          sampleHome.base.driving_time_minutes = some 0)) ∧
      (∀ q : ℚ, sampleHome.base.driving_time_minutes = some q → q ≠ 0 →
        res.distance = fmt1f q ++ " min") ∧
      ((sampleHome.base.imageUrl = none ∨
          sampleHome.base.imageUrl = some ("")) →
        res.imageUrl = placeholder_image) ∧
      (∀ s : String, sampleHome.base.imageUrl = some s → s ≠ "" →
        res.imageUrl = s)) :=
  ⟨by decide,
    search_distance_format ⟨2025, 1, 10⟩ ⟨2025, 1, 20⟩ [sampleHome] sampleHome
      (by decide) (by decide)⟩
